import Mathlib

/-
Verification of the AoC-2023 repository (day 1 solver and run harness).

Shallow embedding of `src/days/day1.rs` and `src/utils/aoc.rs`.

Modelling conventions:
* Rust `&str` values are modelled as `List Char`; offsets are character
  offsets (for the ASCII token table and ASCII inputs these coincide with
  Rust's byte offsets, and for arbitrary inputs the character-offset order
  agrees with the byte-offset order, which is all the code consults).
* Rust panics (`unwrap`, `panic!`) are modelled by `Option`: `none` is the
  aborted computation, `some v` the normal return of `v`.
* `u32` values are modelled as `Nat`; the only place a `u32` bound is
  observable in the embedded code is the range check of `str::parse::<u32>`,
  which is modelled explicitly inside `parse_u32`.
* Wall-clock readings (`Instant::now`/`elapsed`) are nondeterministic, so the
  elapsed duration of `timed_execute` is passed in as an explicit parameter.
-/

/-- Boolean test that `p` occurs as a leading segment of `s`
(the substring comparison a Rust pattern match performs at one offset). -/
def strMatches : List Char → List Char → Bool
  | [], _ => true
  | _ :: _, [] => false
  | p :: ps, c :: cs => decide (p = c) && strMatches ps cs

/-- Occurrence test: `p` occurs in `s` at starting offset `i`. -/
def occursAt (p s : List Char) (i : Nat) : Bool :=
  strMatches p (s.drop i)

/-- Splits a character list at every newline character; the pieces keep their
order and drop the separating `'\n'`. -/
def splitNL : List Char → List (List Char)
  | [] => [[]]
  | c :: cs =>
    if c = '\n' then [] :: splitNL cs
    else
      match splitNL cs with
      | [] => [[c]]
      | l :: ls => (c :: l) :: ls

/-- Strips one trailing carriage return, as Rust's `str::lines` does for
`\r\n` line endings. -/
def stripCR (l : List Char) : List Char :=
  if l.getLast? = some '\r' then l.dropLast else l

/-- Embedding of Rust `str::lines()`: split at `'\n'`, drop the empty piece a
trailing terminator would produce, and strip a trailing `'\r'` of each line. -/
def rustLines (s : List Char) : List (List Char) :=
  let ps := splitNL s
  let ps := if ps.getLast? = some [] then ps.dropLast else ps
  ps.map stripCR

/-- Numeric value of an ASCII digit character. -/
def digitVal (c : Char) : Nat := c.toNat - 48

/-- Embedding of `str::parse::<u32>` on the digit strings the solver builds:
fails on the empty string, on any non-digit character, and on overflow past
`u32::MAX`; otherwise returns the decimal value. -/
def parse_u32 (s : List Char) : Option Nat :=
  if s.isEmpty then none
  else if s.all Char.isDigit then
    if s.foldl (fun acc c => acc * 10 + digitVal c) 0 < 4294967296 then
      some (s.foldl (fun acc c => acc * 10 + digitVal c) 0)
    else none
  else none

/-- Per-line body of `solve_first` (day1.rs lines 12-19): the first and last
ASCII-digit characters (fallback `'0'`), concatenated and parsed as `u32`.
`none` models the `unwrap` panic on a failed parse. -/
def solve_first_line (line : List Char) : Option Nat :=
  let first := (line.find? Char.isDigit).getD '0'
  let last := (line.reverse.find? Char.isDigit).getD '0'
  parse_u32 [first, last]

/-- Summing a per-line computation over the lines, propagating a panic
(`none`) of any line — the `.map(...).sum()` shape of both solvers. -/
def sumParsed (f : List Char → Option Nat) : List (List Char) → Option Nat
  | [] => some 0
  | l :: ls =>
    match f l, sumParsed f ls with
    | some a, some b => some (a + b)
    | _, _ => none

/-- Embedding of `AocDay::solve_first` (day1.rs lines 9-21). -/
def solve_first (input : List Char) : Option Nat :=
  sumParsed solve_first_line (rustLines input)

/-- The token table `NUM_MATCHES` of `solve_second` (day1.rs lines 24-27):
the nine digit words followed by the ten numerals. -/
def NUM_MATCHES : List (List Char) :=
  ["one".toList, "two".toList, "three".toList, "four".toList, "five".toList,
   "six".toList, "seven".toList, "eight".toList, "nine".toList,
   "0".toList, "1".toList, "2".toList, "3".toList, "4".toList,
   "5".toList, "6".toList, "7".toList, "8".toList, "9".toList]

/-- Embedding of Rust `str::match_indices` scanning from offset `i`:
successive non-overlapping leftmost matches of the single pattern `p`, each
reported with its starting offset. Every step consumes at least one character
of the remaining text, so a fuel of at least its length (supplied by
`matchIndices`) makes the recursion structural without changing the result. -/
def matchIndicesAux (p : List Char) : Nat → List Char → Nat → List (Nat × List Char)
  | 0, _, _ => []
  | _ + 1, [], _ => []
  | fuel + 1, c :: rest, i =>
    if strMatches p (c :: rest) then
      (i, p) :: matchIndicesAux p fuel (rest.drop (p.length - 1)) (i + p.length)
    else
      matchIndicesAux p fuel rest (i + 1)

/-- Embedding of `line.match_indices(num)` (day1.rs line 34). -/
def matchIndices (p s : List Char) : List (Nat × List Char) :=
  matchIndicesAux p s.length s 0

/-- The match list of one line in `solve_second` (day1.rs lines 32-35):
the `match_indices` results of all nineteen tokens, concatenated in table
order. -/
def matchesOf (line : List Char) : List (Nat × List Char) :=
  NUM_MATCHES.flatMap (fun num => matchIndices num line)

/-- Embedding of `Iterator::min_by` comparing offsets (day1.rs lines 37-40):
fold keeping the accumulator unless the new element is strictly smaller, so
the first minimal element wins. -/
def minByOffset (l : List (Nat × List Char)) : Option (Nat × List Char) :=
  match l with
  | [] => none
  | x :: xs => some (xs.foldl (fun acc y => if y.1 < acc.1 then y else acc) x)

/-- Embedding of `Iterator::max_by` comparing offsets (day1.rs lines 41-44):
fold keeping the accumulator only while strictly greater, so the last maximal
element wins. -/
def maxByOffset (l : List (Nat × List Char)) : Option (Nat × List Char) :=
  match l with
  | [] => none
  | x :: xs => some (xs.foldl (fun acc y => if y.1 < acc.1 then acc else y) x)

/-- Embedding of `AocDay::match_number` (day1.rs lines 59-75): numerals parse
directly, the nine digit words map through the lexical table, anything else
panics (`none`). -/
def match_number (number : List Char) : Option Nat :=
  match parse_u32 number with
  | some n => some n
  | none =>
    if number = "one".toList then some 1
    else if number = "two".toList then some 2
    else if number = "three".toList then some 3
    else if number = "four".toList then some 4
    else if number = "five".toList then some 5
    else if number = "six".toList then some 6
    else if number = "seven".toList then some 7
    else if number = "eight".toList then some 8
    else if number = "nine".toList then some 9
    else none

/-- Per-line body of `solve_second` (day1.rs lines 31-53): collect all token
matches, pick the match of least and of greatest offset (`unwrap` panics on an
empty match list), map both tokens through `match_number`, concatenate their
decimal renderings and parse as `u32`. -/
def solve_second_line (line : List Char) : Option Nat :=
  let ms := matchesOf line
  match minByOffset ms, maxByOffset ms with
  | some (_, firstTok), some (_, lastTok) =>
    match match_number firstTok, match_number lastTok with
    | some a, some b => parse_u32 (Nat.toDigits 10 a ++ Nat.toDigits 10 b)
    | _, _ => none
  | _, _ => none

/-- Embedding of `AocDay::solve_second` (day1.rs lines 23-55). -/
def solve_second (input : List Char) : Option Nat :=
  sumParsed solve_second_line (rustLines input)

/-- Embedding of `AocResult` (aoc.rs lines 11-14): a part's computed answer
and the elapsed duration of the solving call. The day-1 answer type is `u32`,
modelled as `Nat`; the duration is an abstract tick count. -/
structure AocResult where
  output : Nat
  elapsed : Nat
deriving DecidableEq, Repr

/-- Embedding of `timed_execute` (aoc.rs lines 80-90): run the solving
function on the input and package answer and elapsed time. The clock reading
is nondeterministic, so it enters as the parameter `elapsed`; a solver panic
(`none`) propagates. -/
def timed_execute (solve_func : List Char → Option Nat) (input : List Char)
    (elapsed : Nat) : Option AocResult :=
  (solve_func input).map (fun o => { output := o, elapsed := elapsed })

/-- The text `write_output_file` (aoc.rs lines 63-73) renders for one result:
part header with elapsed time, separator, answer, separator, blank line.
The Rust code prints the duration as fractional seconds; here the abstract
tick count is printed. -/
def renderResult (n : Nat) (s : AocResult) : List Char :=
  "Part ".toList ++ Nat.toDigits 10 (n + 1) ++ " (time: ".toList ++
    Nat.toDigits 10 s.elapsed ++ " s)\n".toList ++
    "====================\n".toList ++ Nat.toDigits 10 s.output ++
    "\n====================\n\n".toList

/-- The full file text `write_output_file` produces: the rendered results in
order, nothing else. -/
def renderOutput (solutions : List AocResult) : List Char :=
  (solutions.enum.map (fun p => renderResult p.1 p.2)).flatten

/-- Embedding of `write_output_file` (aoc.rs lines 46-76): the file is opened
with `create + write + truncate`, so the previous content `prevContent` is
discarded and the new content is exactly the rendered results. Returns the
resulting content of `output/<day>.txt`. -/
def write_output_file (prevContent : List Char) (solutions : List AocResult) :
    List Char :=
  renderOutput solutions

/-- Observable outcome of one `execute` run: the computed results, whether the
read-failure message was printed, and the content of the output file after the
run. -/
structure ExecuteTrace where
  results : List AocResult
  readFailureReported : Bool
  outputFileContent : List Char
deriving DecidableEq, Repr

/-- Embedding of `execute` (aoc.rs lines 97-140) for the day-1 solver. The
outcome of `read_input_file` is the parameter `readResult` (`none`: the file
could not be read), the clock readings are `e1`, `e2`, and the prior content
of the output file is `prevOutput`. On a failed read the failure is reported
and the result list stays empty; on a successful read part 1 and then part 2
run on the same input buffer (a solver panic propagates, modelled by the
outer `Option`). Either way the report is written over the output file. -/
def execute (readResult : Option (List Char)) (e1 e2 : Nat)
    (prevOutput : List Char) : Option ExecuteTrace :=
  match readResult with
  | some input => do
    let r1 ← timed_execute solve_first input e1
    let r2 ← timed_execute solve_second input e2
    some { results := [r1, r2], readFailureReported := false,
           outputFileContent := write_output_file prevOutput [r1, r2] }
  | none =>
    some { results := [], readFailureReported := true,
           outputFileContent := write_output_file prevOutput [] }

/-- A token is free of self-overlap when no nonempty proper suffix of it is
also one of its leading segments; for such a token the non-overlapping scan of
`match_indices` cannot skip an occurrence. -/
def selfOverlapFree (p : List Char) : Bool :=
  (List.range p.length).all (fun k => decide (k = 0) || ! strMatches (p.drop k) p)

theorem strMatches_iff_append (p s : List Char) :
    strMatches p s = true ↔ ∃ t, s = p ++ t := by
  induction p generalizing s with
  | nil => simp [strMatches]
  | cons a as ih =>
    cases s with
    | nil => simp [strMatches]
    | cons b bs =>
      simp only [strMatches, Bool.and_eq_true, decide_eq_true_eq, ih,
        List.cons_append, List.cons.injEq, exists_and_left]
      constructor
      · rintro ⟨rfl, h⟩
        exact ⟨rfl, h⟩
      · rintro ⟨rfl, h⟩
        exact ⟨rfl, h⟩

theorem strMatches_nil_of_ne (p : List Char) (hp : p ≠ []) : strMatches p [] = false := by
  cases p with
  | nil => exact absurd rfl hp
  | cons a as => rfl

theorem take_append_le (u b : List Char) (k : Nat) (h : k ≤ u.length) :
    (u ++ b).take k = u.take k := by
  induction u generalizing k with
  | nil =>
    cases k with
    | zero => simp
    | succ k => simp at h
  | cons a as ih =>
    cases k with
    | zero => simp
    | succ k =>
      simp only [List.cons_append, List.take_succ_cons]
      rw [ih k (by simpa using h)]

theorem drop_append_le (u b : List Char) (k : Nat) (h : k ≤ u.length) :
    (u ++ b).drop k = u.drop k ++ b := by
  induction u generalizing k with
  | nil =>
    cases k with
    | zero => simp
    | succ k => simp at h
  | cons a as ih =>
    cases k with
    | zero => simp
    | succ k =>
      simp only [List.cons_append, List.drop_succ_cons]
      exact ih k (by simpa using h)

/-- Two matches of the same pattern whose offsets differ by less than the
pattern length force a border: the suffix of `p` from `k` is also a leading
segment of `p`. -/
theorem border_of_double_match (p s : List Char) (k : Nat)
    (h0 : strMatches p s = true) (hk : strMatches p (s.drop k) = true)
    (hklt : k < p.length) :
    strMatches (p.drop k) p = true := by
  obtain ⟨t, rfl⟩ := (strMatches_iff_append p s).mp h0
  rw [drop_append_le p t k (Nat.le_of_lt hklt)] at hk
  obtain ⟨u, hu⟩ := (strMatches_iff_append p (p.drop k ++ t)).mp hk
  have htk : (p.drop k).take (p.length - k) = p.drop k :=
    List.take_of_length_le (by simp)
  have htake := congrArg (List.take (p.length - k)) hu
  rw [take_append_le (p.drop k) t (p.length - k) (by simp),
    take_append_le p u (p.length - k) (by omega), htk] at htake
  rw [strMatches_iff_append]
  refine ⟨p.drop (p.length - k), ?_⟩
  conv_lhs => rw [← List.take_append_drop (p.length - k) p, ← htake]

theorem selfOverlapFree_no_border (p : List Char) (h : selfOverlapFree p = true)
    (k : Nat) (hk0 : 0 < k) (hklt : k < p.length) :
    strMatches (p.drop k) p = false := by
  unfold selfOverlapFree at h
  rw [List.all_eq_true] at h
  have := h k (List.mem_range.mpr hklt)
  simp only [Bool.or_eq_true, decide_eq_true_eq, Bool.not_eq_true'] at this
  rcases this with h1 | h1
  · omega
  · exact h1

/-- Characterization of the scan: for a nonempty pattern without self-overlap,
the matches reported from offset `i0` with enough fuel are exactly the
occurrences of the pattern in the scanned text. -/
theorem matchIndicesAux_mem (p : List Char) (hp : p ≠ []) (hb : selfOverlapFree p = true) :
    ∀ (fuel : Nat) (s : List Char), s.length ≤ fuel → ∀ (i0 n : Nat) (q : List Char),
      ((n, q) ∈ matchIndicesAux p fuel s i0 ↔
        q = p ∧ ∃ j, n = i0 + j ∧ strMatches p (s.drop j) = true) := by
  have hnil := strMatches_nil_of_ne p hp
  have hplen : 0 < p.length := by
    cases p with
    | nil => exact absurd rfl hp
    | cons a as => simp
  intro fuel
  induction fuel with
  | zero =>
    intro s hs i0 n q
    have hs0 : s = [] := List.eq_nil_of_length_eq_zero (Nat.le_zero.mp hs)
    subst hs0
    simp [matchIndicesAux, hnil]
  | succ fuel ih =>
    intro s hs i0 n q
    cases s with
    | nil => simp [matchIndicesAux, hnil]
    | cons c rest =>
      have hs' : rest.length ≤ fuel := by
        simp only [List.length_cons] at hs
        omega
      by_cases hm : strMatches p (c :: rest) = true
      · have hrec := ih (rest.drop (p.length - 1))
          (by simp only [List.length_drop]; omega) (i0 + p.length)
        rw [matchIndicesAux, if_pos hm]
        simp only [List.mem_cons, Prod.mk.injEq]
        constructor
        · rintro (⟨rfl, hq⟩ | hmem)
          · subst q
            exact ⟨rfl, 0, by omega, by simpa using hm⟩
          · obtain ⟨hq, j', rfl, hj'⟩ := (hrec _ _).mp hmem
            subst q
            refine ⟨rfl, p.length + j', by omega, ?_⟩
            rw [List.drop_drop] at hj'
            have hstep : (c :: rest).drop (p.length + j') = rest.drop (p.length - 1 + j') := by
              have harith : p.length + j' = (p.length - 1 + j') + 1 := by omega
              rw [harith, List.drop_succ_cons]
            rw [hstep]
            exact hj'
        · rintro ⟨hq, j, rfl, hj⟩
          subst q
          rcases Nat.lt_or_ge j p.length with hjlt | hjge
          · rcases Nat.eq_zero_or_pos j with rfl | hj0
            · exact Or.inl ⟨by omega, rfl⟩
            · exfalso
              have hborder := border_of_double_match p (c :: rest) j hm hj hjlt
              rw [selfOverlapFree_no_border p hb j hj0 hjlt] at hborder
              exact Bool.false_ne_true hborder
          · refine Or.inr ((hrec _ _).mpr ⟨rfl, j - p.length, by omega, ?_⟩)
            rw [List.drop_drop]
            have hstep : (c :: rest).drop j = rest.drop (p.length - 1 + (j - p.length)) := by
              have harith : j = (p.length - 1 + (j - p.length)) + 1 := by omega
              conv_lhs => rw [harith]
              rw [List.drop_succ_cons]
            rw [← hstep]
            exact hj
      · rw [matchIndicesAux, if_neg hm]
        rw [ih rest hs' (i0 + 1) n q]
        constructor
        · rintro ⟨hq, j, rfl, hj⟩
          subst q
          exact ⟨rfl, j + 1, by omega, by simpa [List.drop_succ_cons] using hj⟩
        · rintro ⟨hq, j, rfl, hj⟩
          subst q
          cases j with
          | zero =>
            simp only [List.drop_zero] at hj
            exact absurd hj hm
          | succ j' =>
            exact ⟨rfl, j', by omega, by simpa [List.drop_succ_cons] using hj⟩

theorem matchIndices_mem (p : List Char) (hp : p ≠ []) (hb : selfOverlapFree p = true)
    (s : List Char) (n : Nat) (q : List Char) :
    (n, q) ∈ matchIndices p s ↔ q = p ∧ occursAt p s n = true := by
  unfold matchIndices occursAt
  rw [matchIndicesAux_mem p hp hb s.length s Nat.le.refl 0 n q]
  simp

/-- Every entry of the token table is nonempty and free of self-overlap. -/
theorem num_matches_tokens : ∀ p ∈ NUM_MATCHES, p ≠ [] ∧ selfOverlapFree p = true := by
  decide

/-- The match list a line produces in `solve_second` holds exactly the
occurrences of the table's tokens, at their starting offsets. -/
theorem matchesOf_mem (line : List Char) (n : Nat) (q : List Char) :
    (n, q) ∈ matchesOf line ↔ q ∈ NUM_MATCHES ∧ occursAt q line n = true := by
  unfold matchesOf
  rw [List.mem_flatMap]
  constructor
  · rintro ⟨p, hpmem, hm⟩
    obtain ⟨hp, hb⟩ := num_matches_tokens p hpmem
    obtain ⟨rfl, hocc⟩ := (matchIndices_mem p hp hb line n q).mp hm
    exact ⟨hpmem, hocc⟩
  · rintro ⟨hqmem, hocc⟩
    obtain ⟨hq, hb⟩ := num_matches_tokens q hqmem
    exact ⟨q, hqmem, (matchIndices_mem q hq hb line n q).mpr ⟨rfl, hocc⟩⟩

theorem foldl_min_spec (xs : List (Nat × List Char)) :
    ∀ x : Nat × List Char,
      List.foldl (fun acc y => if y.1 < acc.1 then y else acc) x xs ∈ x :: xs ∧
      (List.foldl (fun acc y => if y.1 < acc.1 then y else acc) x xs).1 ≤ x.1 ∧
      ∀ y ∈ xs, (List.foldl (fun acc y => if y.1 < acc.1 then y else acc) x xs).1 ≤ y.1 := by
  induction xs with
  | nil => intro x; simp
  | cons z zs ih =>
    intro x
    simp only [List.foldl_cons]
    by_cases hz : z.1 < x.1
    · simp only [if_pos hz]
      obtain ⟨hmem, hle, hall⟩ := ih z
      refine ⟨?_, ?_, ?_⟩
      · rcases List.mem_cons.mp hmem with h | h
        · rw [h]
          exact List.mem_cons_of_mem _ (List.mem_cons_self z zs)
        · exact List.mem_cons_of_mem _ (List.mem_cons_of_mem _ h)
      · omega
      · intro y hy
        rcases List.mem_cons.mp hy with rfl | hy'
        · exact hle
        · exact hall y hy'
    · simp only [if_neg hz]
      obtain ⟨hmem, hle, hall⟩ := ih x
      refine ⟨?_, ?_, ?_⟩
      · rcases List.mem_cons.mp hmem with h | h
        · rw [h]
          exact List.mem_cons_self x (z :: zs)
        · exact List.mem_cons_of_mem _ (List.mem_cons_of_mem _ h)
      · exact hle
      · intro y hy
        rcases List.mem_cons.mp hy with rfl | hy'
        · omega
        · exact hall y hy'

theorem foldl_max_spec (xs : List (Nat × List Char)) :
    ∀ x : Nat × List Char,
      List.foldl (fun acc y => if y.1 < acc.1 then acc else y) x xs ∈ x :: xs ∧
      x.1 ≤ (List.foldl (fun acc y => if y.1 < acc.1 then acc else y) x xs).1 ∧
      ∀ y ∈ xs, y.1 ≤ (List.foldl (fun acc y => if y.1 < acc.1 then acc else y) x xs).1 := by
  induction xs with
  | nil => intro x; simp
  | cons z zs ih =>
    intro x
    simp only [List.foldl_cons]
    by_cases hz : z.1 < x.1
    · simp only [if_pos hz]
      obtain ⟨hmem, hle, hall⟩ := ih x
      refine ⟨?_, ?_, ?_⟩
      · rcases List.mem_cons.mp hmem with h | h
        · rw [h]
          exact List.mem_cons_self x (z :: zs)
        · exact List.mem_cons_of_mem _ (List.mem_cons_of_mem _ h)
      · exact hle
      · intro y hy
        rcases List.mem_cons.mp hy with rfl | hy'
        · omega
        · exact hall y hy'
    · simp only [if_neg hz]
      obtain ⟨hmem, hle, hall⟩ := ih z
      refine ⟨?_, ?_, ?_⟩
      · rcases List.mem_cons.mp hmem with h | h
        · rw [h]
          exact List.mem_cons_of_mem _ (List.mem_cons_self z zs)
        · exact List.mem_cons_of_mem _ (List.mem_cons_of_mem _ h)
      · omega
      · intro y hy
        rcases List.mem_cons.mp hy with rfl | hy'
        · exact hle
        · exact hall y hy'

theorem minByOffset_spec (l : List (Nat × List Char)) (hl : l ≠ []) :
    ∃ r, minByOffset l = some r ∧ r ∈ l ∧ ∀ y ∈ l, r.1 ≤ y.1 := by
  cases l with
  | nil => exact absurd rfl hl
  | cons x xs =>
    obtain ⟨hmem, hle, hall⟩ := foldl_min_spec xs x
    refine ⟨_, rfl, hmem, ?_⟩
    intro y hy
    rcases List.mem_cons.mp hy with rfl | hy'
    · exact hle
    · exact hall y hy'

theorem maxByOffset_spec (l : List (Nat × List Char)) (hl : l ≠ []) :
    ∃ r, maxByOffset l = some r ∧ r ∈ l ∧ ∀ y ∈ l, y.1 ≤ r.1 := by
  cases l with
  | nil => exact absurd rfl hl
  | cons x xs =>
    obtain ⟨hmem, hle, hall⟩ := foldl_max_spec xs x
    refine ⟨_, rfl, hmem, ?_⟩
    intro y hy
    rcases List.mem_cons.mp hy with rfl | hy'
    · exact hle
    · exact hall y hy'

/-- No entry of the token table is a leading segment of a different entry
(digit words all differ in their letters, numerals are distinct single
characters, and words and numerals use disjoint alphabets). -/
theorem num_matches_no_lead : ∀ p ∈ NUM_MATCHES, ∀ q ∈ NUM_MATCHES,
    p ≠ q → strMatches p q = false := by
  decide

/-- Of two leading segments of the same text, the shorter is a leading
segment of the longer. -/
theorem strMatches_of_both (t u v : List Char) (ht : strMatches t v = true)
    (hu : strMatches u v = true) (hlen : t.length ≤ u.length) :
    strMatches t u = true := by
  obtain ⟨a, ha⟩ := (strMatches_iff_append t v).mp ht
  obtain ⟨b, hb⟩ := (strMatches_iff_append u v).mp hu
  have heq : t ++ a = u ++ b := by rw [← ha, hb]
  have htake := congrArg (List.take t.length) heq
  rw [take_append_le t a t.length Nat.le.refl, List.take_length,
    take_append_le u b t.length hlen] at htake
  rw [strMatches_iff_append]
  refine ⟨u.drop t.length, ?_⟩
  conv_lhs => rw [← List.take_append_drop t.length u, ← htake]

/-- At one starting offset of one line, at most one table token matches. -/
theorem matchesOf_offset_inj (line : List Char) (i : Nat) (t u : List Char)
    (ht : (i, t) ∈ matchesOf line) (hu : (i, u) ∈ matchesOf line) : t = u := by
  rw [matchesOf_mem] at ht hu
  obtain ⟨htm, hto⟩ := ht
  obtain ⟨hum, huo⟩ := hu
  by_contra hne
  rcases Nat.le_total t.length u.length with h | h
  · have hres := strMatches_of_both t u (line.drop i) hto huo h
    rw [num_matches_no_lead t htm u hum hne] at hres
    exact Bool.false_ne_true hres
  · have hres := strMatches_of_both u t (line.drop i) huo hto h
    rw [num_matches_no_lead u hum t htm (Ne.symm hne)] at hres
    exact Bool.false_ne_true hres

theorem minByOffset_matchesOf (line : List Char) (i : Nat) (t : List Char)
    (hmem : (i, t) ∈ matchesOf line) (hmin : ∀ m ∈ matchesOf line, i ≤ m.1) :
    minByOffset (matchesOf line) = some (i, t) := by
  obtain ⟨r, hr, hrmem, hrle⟩ := minByOffset_spec (matchesOf line)
    (by intro h; rw [h] at hmem; simp at hmem)
  have h1 : r.1 = i := Nat.le_antisymm (hrle _ hmem) (hmin r hrmem)
  have h2 : r.2 = t := by
    refine matchesOf_offset_inj line i r.2 t ?_ hmem
    rw [← h1]
    simpa using hrmem
  rw [hr, ← h1, ← h2]

theorem maxByOffset_matchesOf (line : List Char) (i : Nat) (t : List Char)
    (hmem : (i, t) ∈ matchesOf line) (hmax : ∀ m ∈ matchesOf line, m.1 ≤ i) :
    maxByOffset (matchesOf line) = some (i, t) := by
  obtain ⟨r, hr, hrmem, hrle⟩ := maxByOffset_spec (matchesOf line)
    (by intro h; rw [h] at hmem; simp at hmem)
  have h1 : r.1 = i := Nat.le_antisymm (hmax r hrmem) (hrle _ hmem)
  have h2 : r.2 = t := by
    refine matchesOf_offset_inj line i r.2 t ?_ hmem
    rw [← h1]
    simpa using hrmem
  rw [hr, ← h1, ← h2]

/-- C3: `solve_first` gives the documented combined value on each of the four
part-1 example lines, and 142 on the input made of those four lines. -/
theorem claim_c3_first_examples :
    solve_first_line "1abc2".toList = some 12 ∧
    solve_first_line "pqr3stu8vwx".toList = some 38 ∧
    solve_first_line "a1b2c3d4e5f".toList = some 15 ∧
    solve_first_line "treb7uchet".toList = some 77 ∧
    solve_first "1abc2\npqr3stu8vwx\na1b2c3d4e5f\ntreb7uchet".toList = some 142 := by
  decide

/-- C2: `solve_second` gives the documented combined value on each of the
seven part-2 example lines, and 281 on the input made of those seven lines. -/
theorem claim_c2_second_examples :
    solve_second_line "two1nine".toList = some 29 ∧
    solve_second_line "eightwothree".toList = some 83 ∧
    solve_second_line "abcone2threexyz".toList = some 13 ∧
    solve_second_line "xtwone3four".toList = some 24 ∧
    solve_second_line "4nineeightseven2".toList = some 42 ∧
    solve_second_line "zoneight234".toList = some 14 ∧
    solve_second_line "7pqrstsixteen".toList = some 76 ∧
    solve_second
      "two1nine\neightwothree\nabcone2threexyz\nxtwone3four\n4nineeightseven2\nzoneight234\n7pqrstsixteen".toList
      = some 281 := by
  decide

/-- C1: on every line, the match list of `solve_second` holds exactly the
occurrences of the nineteen tokens at their starting offsets — matches of
distinct tokens may overlap in characters and none is consumed by a prior
match; the selected first match is the one of least starting offset and the
selected last match the one of greatest starting offset; in particular the
line `"eightwothree"` detects the overlapping word tokens `eight` at offset 0
and `two` at offset 4, and `three` at offset 7. -/
theorem claim_c1_overlap_and_selection (line : List Char) :
    (∀ (i : Nat) (t : List Char),
      (i, t) ∈ matchesOf line ↔ t ∈ NUM_MATCHES ∧ occursAt t line i = true) ∧
    (∀ (i : Nat) (t : List Char), (i, t) ∈ matchesOf line →
      (∀ m ∈ matchesOf line, i ≤ m.1) →
      minByOffset (matchesOf line) = some (i, t)) ∧
    (∀ (i : Nat) (t : List Char), (i, t) ∈ matchesOf line →
      (∀ m ∈ matchesOf line, m.1 ≤ i) →
      maxByOffset (matchesOf line) = some (i, t)) ∧
    ((0, "eight".toList) ∈ matchesOf "eightwothree".toList ∧
      (4, "two".toList) ∈ matchesOf "eightwothree".toList ∧
      (7, "three".toList) ∈ matchesOf "eightwothree".toList) := by
  refine ⟨fun i t => matchesOf_mem line i t,
    fun i t => minByOffset_matchesOf line i t,
    fun i t => maxByOffset_matchesOf line i t,
    by decide, by decide, by decide⟩

theorem claim_c1_witness :
    minByOffset (matchesOf "eightwothree".toList) = some (0, "eight".toList) ∧
    maxByOffset (matchesOf "eightwothree".toList) = some (7, "three".toList) :=
  ⟨(claim_c1_overlap_and_selection "eightwothree".toList).2.1 0 "eight".toList
      (by decide) (by decide),
    (claim_c1_overlap_and_selection "eightwothree".toList).2.2.1 7 "three".toList
      (by decide) (by decide)⟩

/-- C9: no token of the nineteen-entry table is a leading segment of a
different token, so two table tokens never match one line at the same
starting offset, and the first/last selection is determined by the offsets
alone. -/
theorem claim_c9_offsets_determine_tokens :
    (∀ t ∈ NUM_MATCHES, ∀ u ∈ NUM_MATCHES, t ≠ u → strMatches t u = false) ∧
    (∀ (line : List Char) (i : Nat) (t u : List Char),
      (i, t) ∈ matchesOf line → (i, u) ∈ matchesOf line → t = u) :=
  ⟨num_matches_no_lead, matchesOf_offset_inj⟩

theorem claim_c9_witness :
    strMatches "six".toList "seven".toList = false ∧
    strMatches "one".toList "nine".toList = false :=
  ⟨claim_c9_offsets_determine_tokens.1 "six".toList (by decide) "seven".toList
      (by decide) (by decide),
    claim_c9_offsets_determine_tokens.1 "one".toList (by decide) "nine".toList
      (by decide) (by decide)⟩

/-- C7: both solving functions are pure functions of the input text, so two
runs on the same input return equal answers, and the answer component of a
timed execution does not depend on the clock reading. -/
theorem claim_c7_deterministic (input : List Char) (e1 e2 : Nat) :
    solve_first input = solve_first input ∧
    solve_second input = solve_second input ∧
    (timed_execute solve_first input e1).map AocResult.output =
      (timed_execute solve_first input e2).map AocResult.output ∧
    (timed_execute solve_second input e1).map AocResult.output =
      (timed_execute solve_second input e2).map AocResult.output := by
  refine ⟨rfl, rfl, ?_, ?_⟩
  · unfold timed_execute
    cases solve_first input <;> rfl
  · unfold timed_execute
    cases solve_second input <;> rfl

/-- C8: on a failed input read `execute` reports the failure, runs no solver,
keeps the result list empty and returns normally; on a successful read it runs
part 1 and then part 2 on the same input buffer. -/
theorem claim_c8_execute_paths (input prev : List Char) (e1 e2 : Nat) (a b : Nat)
    (h1 : solve_first input = some a) (h2 : solve_second input = some b) :
    (∀ (prev2 : List Char) (e3 e4 : Nat),
      execute none e3 e4 prev2 =
        some { results := [], readFailureReported := true,
               outputFileContent := [] }) ∧
    execute (some input) e1 e2 prev =
      some { results := [{ output := a, elapsed := e1 },
                         { output := b, elapsed := e2 }],
             readFailureReported := false,
             outputFileContent :=
               renderOutput [{ output := a, elapsed := e1 },
                             { output := b, elapsed := e2 }] } := by
  constructor
  · intro prev2 e3 e4
    rfl
  · simp [execute, timed_execute, h1, h2, write_output_file]

theorem claim_c8_witness :
    (∀ (prev2 : List Char) (e3 e4 : Nat),
      execute none e3 e4 prev2 =
        some { results := [], readFailureReported := true,
               outputFileContent := [] }) ∧
    execute (some "1\n2".toList) 5 7 "old".toList =
      some { results := [{ output := 33, elapsed := 5 },
                         { output := 33, elapsed := 7 }],
             readFailureReported := false,
             outputFileContent :=
               renderOutput [{ output := 33, elapsed := 5 },
                             { output := 33, elapsed := 7 }] } :=
  claim_c8_execute_paths "1\n2".toList "old".toList 5 7 33 33 (by decide) (by decide)

/-- C10: even when the input read fails, `execute` still hands the empty
result list to `write_output_file`, whose truncating open discards whatever
report was in the output file before, leaving it empty. -/
theorem claim_c10_truncated_output (prev : List Char) (e1 e2 : Nat) :
    (execute none e1 e2 prev).map ExecuteTrace.results = some [] ∧
    (execute none e1 e2 prev).map ExecuteTrace.outputFileContent = some [] ∧
    write_output_file prev [] = [] := by
  exact ⟨rfl, rfl, rfl⟩

theorem digitVal_lt_10 (c : Char) (h : c.isDigit = true) : digitVal c < 10 := by
  have hle : c.toNat ≤ 57 := by
    simp only [Char.isDigit, Bool.and_eq_true, decide_eq_true_eq] at h
    exact h.2
  unfold digitVal
  omega

theorem getD_find_isDigit (line : List Char) :
    ((line.find? Char.isDigit).getD '0').isDigit = true := by
  cases hf : line.find? Char.isDigit with
  | none => decide
  | some c => simpa using List.find?_some hf

theorem parse_two_digit_chars (a b : Char) (ha : a.isDigit = true)
    (hb : b.isDigit = true) :
    parse_u32 [a, b] = some (10 * digitVal a + digitVal b) := by
  have ha9 := digitVal_lt_10 a ha
  have hb9 := digitVal_lt_10 b hb
  unfold parse_u32
  rw [if_neg (by simp), if_pos (by simp [ha, hb])]
  simp only [List.foldl_cons, List.foldl_nil]
  have hv : (0 * 10 + digitVal a) * 10 + digitVal b = 10 * digitVal a + digitVal b := by
    ring
  rw [hv, if_pos (by omega)]

theorem solve_first_line_value (line : List Char) :
    solve_first_line line =
      some (10 * digitVal ((line.find? Char.isDigit).getD '0') +
        digitVal ((line.reverse.find? Char.isDigit).getD '0')) := by
  unfold solve_first_line
  exact parse_two_digit_chars _ _ (getD_find_isDigit line)
    (getD_find_isDigit line.reverse)

theorem sumParsed_cons (f : List Char → Option Nat) (l : List Char)
    (ls : List (List Char)) :
    sumParsed f (l :: ls) =
      match f l, sumParsed f ls with
      | some a, some b => some (a + b)
      | _, _ => none := rfl

theorem sumParsed_isSome_of_mem (f : List Char → Option Nat)
    (ls : List (List Char)) (hf : ∀ l ∈ ls, ∃ v, f l = some v) :
    ∃ v, sumParsed f ls = some v := by
  induction ls with
  | nil => exact ⟨0, rfl⟩
  | cons l ls ih =>
    obtain ⟨a, ha⟩ := hf l (List.mem_cons_self l ls)
    obtain ⟨b, hb⟩ := ih (fun x hx => hf x (List.mem_cons_of_mem l hx))
    exact ⟨a + b, by simp [sumParsed, ha, hb]⟩

theorem sumParsed_none_of_mem (f : List Char → Option Nat)
    (ls : List (List Char)) (l : List Char) (hl : l ∈ ls) (h : f l = none) :
    sumParsed f ls = none := by
  induction ls with
  | nil => simp at hl
  | cons x xs ih =>
    rcases List.mem_cons.mp hl with rfl | hmem
    · cases hxs : sumParsed f xs <;> simp [sumParsed, h, hxs]
    · cases hx : f x <;> simp [sumParsed, hx, ih hmem]

/-- C4: a line without any ASCII decimal digit gets the fallback `'0'` for
both positions, so its combined value is 0 and removing it from the line list
does not change the summed answer. -/
theorem claim_c4_no_digit_line (line : List Char)
    (h : ∀ c ∈ line, c.isDigit = false) :
    solve_first_line line = some 0 ∧
    ∀ (pre post : List (List Char)),
      sumParsed solve_first_line (pre ++ line :: post) =
        sumParsed solve_first_line (pre ++ post) := by
  have hfind : line.find? Char.isDigit = none := by
    rw [List.find?_eq_none]
    intro x hx
    simp [h x hx]
  have hfindr : line.reverse.find? Char.isDigit = none := by
    rw [List.find?_eq_none]
    intro x hx
    simp [h x (List.mem_reverse.mp hx)]
  have hline : solve_first_line line = some 0 := by
    unfold solve_first_line
    rw [hfind, hfindr]
    decide
  refine ⟨hline, ?_⟩
  intro pre post
  induction pre with
  | nil =>
    simp only [List.nil_append]
    cases hps : sumParsed solve_first_line post <;>
      simp [sumParsed, hline, hps]
  | cons p ps ih =>
    simp only [List.cons_append]
    rw [sumParsed_cons, sumParsed_cons, ih]

theorem claim_c4_witness :
    solve_first_line "abc".toList = some 0 ∧
    sumParsed solve_first_line (["12".toList] ++ "abc".toList :: ["3".toList]) =
      sumParsed solve_first_line (["12".toList] ++ ["3".toList]) :=
  ⟨(claim_c4_no_digit_line "abc".toList (by decide)).1,
    (claim_c4_no_digit_line "abc".toList (by decide)).2 ["12".toList] ["3".toList]⟩

/-- C5: in part 1 the two combined characters are always ASCII digits (found
in the line or the fallback `'0'`), so the `u32` parse succeeds on every line
and `solve_first` returns a value on every input. -/
theorem claim_c5_first_never_panics (input : List Char) :
    (∀ line : List Char,
      ((line.find? Char.isDigit).getD '0').isDigit = true ∧
      ((line.reverse.find? Char.isDigit).getD '0').isDigit = true) ∧
    (∀ line : List Char, ∃ v, solve_first_line line = some v) ∧
    ∃ n, solve_first input = some n := by
  refine ⟨fun line => ⟨getD_find_isDigit line, getD_find_isDigit line.reverse⟩,
    fun line => ⟨_, solve_first_line_value line⟩, ?_⟩
  unfold solve_first
  exact sumParsed_isSome_of_mem _ _ (fun l _ => ⟨_, solve_first_line_value l⟩)

/-- A line's match list is empty exactly when no table token occurs anywhere
in the line. -/
theorem matchesOf_eq_nil (line : List Char) :
    matchesOf line = [] ↔
      ∀ (i : Nat) (t : List Char), t ∈ NUM_MATCHES → occursAt t line i = false := by
  rw [List.eq_nil_iff_forall_not_mem]
  constructor
  · intro h i t htm
    by_contra hocc
    rw [Bool.not_eq_false] at hocc
    exact h (i, t) ((matchesOf_mem line i t).mpr ⟨htm, hocc⟩)
  · intro h m hm
    obtain ⟨htm, hocc⟩ := (matchesOf_mem line m.1 m.2).mp (by simpa using hm)
    rw [h m.1 m.2 htm] at hocc
    exact Bool.false_ne_true hocc

theorem match_number_all_tokens :
    ∀ t ∈ NUM_MATCHES,
      (match_number t).isSome = true ∧ (match_number t).getD 0 < 10 := by
  decide

theorem match_number_token (t : List Char) (ht : t ∈ NUM_MATCHES) :
    ∃ d, d < 10 ∧ match_number t = some d := by
  obtain ⟨hs, hlt⟩ := match_number_all_tokens t ht
  cases hmn : match_number t with
  | none => rw [hmn] at hs; simp at hs
  | some d =>
    rw [hmn] at hlt
    exact ⟨d, by simpa using hlt, rfl⟩

theorem parse_toDigits_pair :
    ∀ a < 10, ∀ b < 10,
      parse_u32 (Nat.toDigits 10 a ++ Nat.toDigits 10 b) = some (10 * a + b) := by
  decide

theorem solve_second_line_isSome (line : List Char) (h : matchesOf line ≠ []) :
    ∃ v, solve_second_line line = some v := by
  obtain ⟨⟨i1, t1⟩, hmin, hminmem, hminle⟩ := minByOffset_spec (matchesOf line) h
  obtain ⟨⟨i2, t2⟩, hmax, hmaxmem, hmaxle⟩ := maxByOffset_spec (matchesOf line) h
  obtain ⟨ht1, hocc1⟩ := (matchesOf_mem line i1 t1).mp hminmem
  obtain ⟨ht2, hocc2⟩ := (matchesOf_mem line i2 t2).mp hmaxmem
  obtain ⟨d1, hd1lt, hd1⟩ := match_number_token t1 ht1
  obtain ⟨d2, hd2lt, hd2⟩ := match_number_token t2 ht2
  refine ⟨10 * d1 + d2, ?_⟩
  unfold solve_second_line
  simp only [hmin, hmax, hd1, hd2]
  exact parse_toDigits_pair d1 hd1lt d2 hd2lt

theorem solve_second_line_none (line : List Char) (h : matchesOf line = []) :
    solve_second_line line = none := by
  unfold solve_second_line
  rw [h]
  rfl

/-- Tokens are nonempty, so an occurrence can only start inside the line;
checking all in-range offsets therefore settles all offsets. -/
theorem occursAt_false_beyond (t line : List Char) (ht : t ≠ [])
    (h : ∀ i, i < line.length → occursAt t line i = false) :
    ∀ i, occursAt t line i = false := by
  intro i
  by_cases hi : i < line.length
  · exact h i hi
  · unfold occursAt
    rw [List.drop_eq_nil_of_le (by omega)]
    exact strMatches_nil_of_ne t ht

/-- C6: if some line of the input contains no occurrence of any of the 19
tokens, `solve_second` aborts (the `unwrap` of the empty match list panics)
instead of returning a sum; if every line contains at least one token,
`solve_second` returns normally. -/
theorem claim_c6_tokenless_line_panics (input : List Char) :
    ((∃ line ∈ rustLines input, ∀ (i : Nat) (t : List Char),
        t ∈ NUM_MATCHES → occursAt t line i = false) →
      solve_second input = none) ∧
    ((∀ line ∈ rustLines input, ∃ (i : Nat) (t : List Char),
        t ∈ NUM_MATCHES ∧ occursAt t line i = true) →
      ∃ v, solve_second input = some v) := by
  constructor
  · rintro ⟨line, hline, hno⟩
    unfold solve_second
    exact sumParsed_none_of_mem _ _ line hline
      (solve_second_line_none line ((matchesOf_eq_nil line).mpr hno))
  · intro hall
    unfold solve_second
    apply sumParsed_isSome_of_mem
    intro l hl
    obtain ⟨i, t, htm, hocc⟩ := hall l hl
    apply solve_second_line_isSome
    intro hnil
    rw [(matchesOf_eq_nil l).mp hnil i t htm] at hocc
    exact Bool.false_ne_true hocc

theorem claim_c6_witness :
    solve_second "abc".toList = none ∧ ∃ v, solve_second "1".toList = some v := by
  constructor
  · apply (claim_c6_tokenless_line_panics "abc".toList).1
    have hdec : ∀ t ∈ NUM_MATCHES, ∀ i, i < ("abc".toList).length →
        occursAt t "abc".toList i = false := by decide
    exact ⟨"abc".toList, by decide,
      fun i t htm =>
        occursAt_false_beyond t "abc".toList (num_matches_tokens t htm).1
          (hdec t htm) i⟩
  · apply (claim_c6_tokenless_line_panics "1".toList).2
    intro line hl
    have hline : line = ['1'] := by
      rw [show rustLines "1".toList = [['1']] from rfl] at hl
      simpa using hl
    subst hline
    exact ⟨0, "1".toList, by decide, by decide⟩
